import Mathlib

/-!
# Verification of the point-grouping web app (`app.py`)

A shallow embedding of the algorithmic content of `app.py`:

* `find_optimal_grouping` (with its helpers `max_y_distance` and the
  overflow-repair loop) — the grouping core;
* the point store of the Dash callback `update_graph_and_list`
  (`generate_point_name`, the add/remove branches, and the global
  `points` / `used_names` / `removed_names` state).

Python floats are modelled as `ℚ`; Python's stable `sorted` with a key
is modelled by `List.insertionSort` with the corresponding total
preorder (a stable sort is uniquely determined by its input order and
the preorder, so this is the same function).  Point labels in the store
are modelled as `ℕ` indices into the Python name stream
`a, b, …, z, a1, …, z1, a2, …` (the string rendering of labels is
presentation only); sets are modelled as duplicate-free lists and
`KeyError` / partial results as `Except`.
-/

set_option maxHeartbeats 1000000

attribute [local semireducible] Rat.add Rat.sub Rat.mul Rat.inv

/-- A labelled 2-D point, the `(x, y, name)` triples that
`update_graph_and_list` zips together and feeds to
`find_optimal_grouping`. -/
structure Pt where
  x : ℚ
  y : ℚ
  label : String
deriving DecidableEq, Repr

/-- Python's `max(y_values)` over the `y` fields of a list
(the value for `[]` is arbitrary: `max_y_distance` guards it). -/
def maxY : List Pt → ℚ
  | [] => 0
  | [p] => p.y
  | p :: q :: l => max p.y (maxY (q :: l))

/-- Python's `min(y_values)` over the `y` fields of a list. -/
def minY : List Pt → ℚ
  | [] => 0
  | [p] => p.y
  | p :: q :: l => min p.y (minY (q :: l))

/-- `max_y_distance(group)` from `app.py`: `0` for the empty list, else
`max(y_values) - min(y_values)`. -/
def max_y_distance (group : List Pt) : ℚ :=
  if group = [] then 0 else maxY group - minY group

/-- The sort relation of `sorted(points, key=lambda p: -p[1])`:
`p` may come before `q` iff `-p.y ≤ -q.y`. -/
def descY (p q : Pt) : Prop := q.y ≤ p.y

instance : DecidableRel descY := fun p q => inferInstanceAs (Decidable (q.y ≤ p.y))

instance : IsTotal Pt descY := ⟨fun p q => le_total q.y p.y⟩

instance : IsTrans Pt descY := ⟨fun _ _ _ h h' => le_trans h' h⟩

/-- The sort relation of `sorted(group, key=lambda p: p[0])`. -/
def ascX (p q : Pt) : Prop := p.x ≤ q.x

instance : DecidableRel ascX := fun p q => inferInstanceAs (Decidable (p.x ≤ q.x))

instance : IsTotal Pt ascX := ⟨fun p q => le_total p.x q.x⟩

instance : IsTrans Pt ascX := ⟨fun _ _ _ h h' => le_trans h h'⟩

/-- `sorted(points, key=lambda p: -p[1])`: stable sort by `y`
descending (a stable sort is determined by the preorder, so
`insertionSort` computes the same list as Python's Timsort). -/
def sortDescY (l : List Pt) : List Pt :=
  l.insertionSort descY

/-- `sorted(group, key=lambda p: p[0])`: stable sort by `x`
ascending. -/
def sortAscX (l : List Pt) : List Pt :=
  l.insertionSort ascX

/-- One iteration of the repair loop `for p in current_group:` in
`find_optimal_grouping`.  The accumulator is the pair
`(new_group, remaining_group)`; `temp_remaining_group` is
`remaining_group` with the first occurrence of `p` removed
(`list.remove`). -/
def repairStep (pr : List Pt × List Pt) (p : Pt) : List Pt × List Pt :=
  let new_group := pr.1
  let remaining_group := pr.2
  let temp_group := new_group ++ [p]
  let temp_remaining_group := remaining_group.erase p
  if max_y_distance temp_group < max_y_distance (temp_remaining_group ++ [p]) then
    (new_group ++ [p], remaining_group.erase p)
  else
    (new_group, remaining_group)

/-- The whole `# Try to split the group optimally` block: starting from
`new_group = [point]` and `remaining_group = current_group[:]`, walk the
(unmutated) `current_group` with `repairStep`. -/
def splitGroup (current_group : List Pt) (point : Pt) : List Pt × List Pt :=
  current_group.foldl repairStep ([point], current_group)

/-- One iteration of `for point in points:` in `find_optimal_grouping`.
The accumulator is `(groups, current_group)`. -/
def fogStep (tolerance : ℚ) (st : List (List Pt) × List Pt) (point : Pt) :
    List (List Pt) × List Pt :=
  let groups := st.1
  let current_group := st.2
  if current_group = [] then
    (groups, [point])
  else
    let new_max_distance := max_y_distance (current_group ++ [point])
    if new_max_distance < tolerance then
      (groups, current_group ++ [point])
    else
      let split := splitGroup current_group point
      (groups ++ [split.2], split.1)

/-- `find_optimal_grouping(points, tolerance)` from `app.py`. -/
def find_optimal_grouping (points : List Pt) (tolerance : ℚ) : List (List Pt) :=
  let res := (sortDescY points).foldl (fogStep tolerance) ([], [])
  if res.2 = [] then res.1 else res.1 ++ [res.2]

/-! ## The point store of `update_graph_and_list`

Labels are the indices `0, 1, 2, …` of the Python name stream
`a, …, z, a1, …, z1, a2, …` (the stream is injective, so the index is a
faithful stand-in for the string; string formatting is presentation).
`used_names` (a Python `set`) is a duplicate-free list, `removed_names`
a FIFO list, and `points` the three parallel arrays of the source. -/

/-- The global mutable state of `app.py`: the `points` dict (three
parallel lists), `used_names` and `removed_names`. -/
structure Store where
  ptsX : List ℚ
  ptsY : List ℚ
  ptsN : List ℕ
  used : List ℕ
  removed : List ℕ
deriving DecidableEq, Repr

/-- The initial state: all containers empty. -/
def Store.init : Store := ⟨[], [], [], [], []⟩

/-- The fresh-name search of `generate_point_name`: the first index not
in `used_names`, found by walking `a, …, z, a1, …` in stream order.
`fuel` bounds the walk; `usedCard + 1` candidates always suffice. -/
def freshFrom (used : List ℕ) : ℕ → ℕ → ℕ
  | 0, k => k
  | fuel + 1, k => if k ∈ used then freshFrom used fuel (k + 1) else k

/-- `generate_point_name()`: pop the head of `removed_names` if
nonempty (without touching `used_names` — the source of the store bugs),
else mint the first unused name and add it to `used_names`. -/
def generate_point_name (s : Store) : ℕ × Store :=
  match s.removed with
  | n :: rest => (n, { s with removed := rest })
  | [] =>
      let k := freshFrom s.used (s.used.length + 1) 0
      (k, { s with used := s.used.insert k })

/-- One user interaction: clicking `Add Point` (with the optional typed
coordinates and the two `np.random.uniform(0, 10)` draws the callback
would consume) or `Remove Point`. -/
inductive Op where
  | add (xc yc : Option ℚ) (rx ry : ℚ)
  | remove
deriving DecidableEq, Repr

/-- The coordinate resolution at the top of the add branch:
`if x_coord is None or y_coord is None:` replaces *both* coordinates
with the random draws. -/
def coordsOf (rx ry : ℚ) (xc yc : Option ℚ) : ℚ × ℚ :=
  if xc.isNone || yc.isNone then (rx, ry) else (xc.getD 0, yc.getD 0)

/-- The state mutation of `update_graph_and_list` for one button click.
`Except.error` models the uncaught `KeyError` of
`used_names.remove(name)`. -/
def applyOp (s : Store) : Op → Except String Store
  | Op.add xc yc rx ry =>
      let xy := coordsOf rx ry xc yc
      let ns := generate_point_name s
      Except.ok { ns.2 with
        ptsX := ns.2.ptsX ++ [xy.1]
        ptsY := ns.2.ptsY ++ [xy.2]
        ptsN := ns.2.ptsN ++ [ns.1] }
  | Op.remove =>
      if s.ptsX = [] then Except.ok s
      else
        let nm := s.ptsN.getLastD 0
        if nm ∈ s.used then
          Except.ok { s with
            ptsX := s.ptsX.dropLast
            ptsY := s.ptsY.dropLast
            ptsN := s.ptsN.dropLast
            used := s.used.erase nm
            removed := s.removed ++ [nm] }
        else Except.error "KeyError"

/-- Run a sequence of button clicks from the initial state, stopping at
the first uncaught exception. -/
def runOps (ops : List Op) : Except String Store :=
  ops.foldlM applyOp Store.init

/-- The outcome of one repair pass `splitGroup cur u`, everything the
correctness theorems need: the two halves are a permutation of
`u :: cur`; the remaining group is a sublist of the old one; the
maximal `y` of the old group stays in the remaining group; the new
group is `[u]` or has strictly smaller span than the old group; every
point kept in the remaining group lies at least as high as every point
of the new group; and the new group is `u` followed by a sublist of the
old group. -/
def PostSplit (cur : List Pt) (u : Pt) (res : List Pt × List Pt) : Prop :=
  (res.1 ++ res.2).Perm (u :: cur) ∧
  res.2.Sublist cur ∧
  (∃ r ∈ res.2, r.y = maxY cur) ∧
  (res.1 = [u] ∨ max_y_distance res.1 < max_y_distance cur) ∧
  (∀ r ∈ res.2, ∀ n ∈ res.1, n.y ≤ r.y) ∧
  (∃ mv', res.1 = u :: mv' ∧ mv'.Sublist cur)

/-! ## Basic facts about `maxY`, `minY` and `max_y_distance` -/

theorem le_maxY {p : Pt} : ∀ {l : List Pt}, p ∈ l → p.y ≤ maxY l := by
  intro l
  induction l with
  | nil => intro h; cases h
  | cons q t ih =>
    intro h
    cases t with
    | nil => simp only [List.mem_singleton] at h; subst h; simp [maxY]
    | cons r t' =>
      rcases List.mem_cons.mp h with h | h
      · subst h; exact le_max_left _ _
      · exact le_trans (ih h) (le_max_right _ _)

theorem minY_le {p : Pt} : ∀ {l : List Pt}, p ∈ l → minY l ≤ p.y := by
  intro l
  induction l with
  | nil => intro h; cases h
  | cons q t ih =>
    intro h
    cases t with
    | nil => simp only [List.mem_singleton] at h; subst h; simp [minY]
    | cons r t' =>
      rcases List.mem_cons.mp h with h | h
      · subst h; exact min_le_left _ _
      · exact le_trans (min_le_right _ _) (ih h)

theorem maxY_mem : ∀ {l : List Pt}, l ≠ [] → ∃ p ∈ l, maxY l = p.y := by
  intro l
  induction l with
  | nil => intro h; exact absurd rfl h
  | cons q t ih =>
    intro _
    cases t with
    | nil => exact ⟨q, List.mem_singleton_self q, rfl⟩
    | cons r t' =>
      rcases ih (List.cons_ne_nil r t') with ⟨p, hp, hv⟩
      rcases le_total (maxY (r :: t')) q.y with h | h
      · exact ⟨q, List.mem_cons_self q _, by simp [maxY, max_eq_left h]⟩
      · exact ⟨p, List.mem_cons_of_mem _ hp, by
          simp only [maxY]; rw [max_eq_right h]; exact hv⟩

theorem minY_mem : ∀ {l : List Pt}, l ≠ [] → ∃ p ∈ l, minY l = p.y := by
  intro l
  induction l with
  | nil => intro h; exact absurd rfl h
  | cons q t ih =>
    intro _
    cases t with
    | nil => exact ⟨q, List.mem_singleton_self q, rfl⟩
    | cons r t' =>
      rcases ih (List.cons_ne_nil r t') with ⟨p, hp, hv⟩
      rcases le_total q.y (minY (r :: t')) with h | h
      · exact ⟨q, List.mem_cons_self q _, by simp [minY, min_eq_left h]⟩
      · exact ⟨p, List.mem_cons_of_mem _ hp, by
          simp only [minY]; rw [min_eq_right h]; exact hv⟩

theorem maxY_le {c : ℚ} {l : List Pt} (hne : l ≠ []) (h : ∀ p ∈ l, p.y ≤ c) :
    maxY l ≤ c := by
  rcases maxY_mem hne with ⟨p, hp, hv⟩
  exact hv ▸ h p hp

theorem le_minY {c : ℚ} {l : List Pt} (hne : l ≠ []) (h : ∀ p ∈ l, c ≤ p.y) :
    c ≤ minY l := by
  rcases minY_mem hne with ⟨p, hp, hv⟩
  exact hv ▸ h p hp

theorem minY_le_maxY {l : List Pt} (hne : l ≠ []) : minY l ≤ maxY l := by
  rcases maxY_mem hne with ⟨p, hp, hv⟩
  exact hv ▸ minY_le hp

theorem maxY_subset_le {l₁ l₂ : List Pt} (hne : l₁ ≠ []) (h : ∀ p ∈ l₁, p ∈ l₂) :
    maxY l₁ ≤ maxY l₂ := by
  rcases maxY_mem hne with ⟨p, hp, hv⟩
  exact hv ▸ le_maxY (h p hp)

theorem minY_subset_le {l₁ l₂ : List Pt} (hne : l₁ ≠ []) (h : ∀ p ∈ l₁, p ∈ l₂) :
    minY l₂ ≤ minY l₁ := by
  rcases minY_mem hne with ⟨p, hp, hv⟩
  exact hv ▸ minY_le (h p hp)

theorem maxY_eq_of_mem_iff {l₁ l₂ : List Pt} (hne₁ : l₁ ≠ []) (hne₂ : l₂ ≠ [])
    (h : ∀ p, p ∈ l₁ ↔ p ∈ l₂) : maxY l₁ = maxY l₂ :=
  le_antisymm (maxY_subset_le hne₁ fun p hp => (h p).mp hp)
    (maxY_subset_le hne₂ fun p hp => (h p).mpr hp)

theorem minY_eq_of_mem_iff {l₁ l₂ : List Pt} (hne₁ : l₁ ≠ []) (hne₂ : l₂ ≠ [])
    (h : ∀ p, p ∈ l₁ ↔ p ∈ l₂) : minY l₁ = minY l₂ :=
  le_antisymm (minY_subset_le hne₂ fun p hp => (h p).mpr hp)
    (minY_subset_le hne₁ fun p hp => (h p).mp hp)

theorem max_y_distance_nonneg (l : List Pt) : 0 ≤ max_y_distance l := by
  by_cases h : l = []
  · simp [max_y_distance, h]
  · simp only [max_y_distance, if_neg h]
    linarith [minY_le_maxY h]

theorem max_y_distance_eq {l : List Pt} (h : l ≠ []) :
    max_y_distance l = maxY l - minY l := by
  simp [max_y_distance, h]

theorem max_y_distance_perm {l₁ l₂ : List Pt} (h : l₁.Perm l₂) :
    max_y_distance l₁ = max_y_distance l₂ := by
  by_cases hne : l₁ = []
  · subst hne
    rw [List.Perm.eq_nil h.symm]
  · have hne₂ : l₂ ≠ [] := fun h2 => hne (List.Perm.eq_nil (h2 ▸ h))
    rw [max_y_distance_eq hne, max_y_distance_eq hne₂,
      maxY_eq_of_mem_iff hne hne₂ (fun p => h.mem_iff),
      minY_eq_of_mem_iff hne hne₂ (fun p => h.mem_iff)]

theorem max_y_distance_subset_le {l₁ l₂ : List Pt} (hne : l₁ ≠ [])
    (h : ∀ p ∈ l₁, p ∈ l₂) : max_y_distance l₁ ≤ max_y_distance l₂ := by
  have hne₂ : l₂ ≠ [] := by
    rcases List.exists_mem_of_ne_nil l₁ hne with ⟨p, hp⟩
    exact List.ne_nil_of_mem (h p hp)
  rw [max_y_distance_eq hne, max_y_distance_eq hne₂]
  linarith [maxY_subset_le hne h, minY_subset_le hne h]

theorem sub_le_max_y_distance {l : List Pt} {p q : Pt} (hp : p ∈ l) (hq : q ∈ l) :
    p.y - q.y ≤ max_y_distance l := by
  have hne : l ≠ [] := List.ne_nil_of_mem hp
  rw [max_y_distance_eq hne]
  linarith [le_maxY hp, minY_le hq]

/-! ## Counting and `List.diff` helpers -/

theorem countDiff (a : Pt) : ∀ (s l : List Pt),
    List.count a (l.diff s) = List.count a l - List.count a s := by
  intro s
  induction s with
  | nil => intro l; simp
  | cons q s' ih =>
    intro l
    rw [List.diff_cons, ih, List.count_erase, List.count_cons]
    by_cases h : q = a
    · subst h; simp; omega
    · simp only [if_neg (by simpa using h : ¬((q == a) = true))]
      omega

theorem mem_diff_iff_count {a : Pt} {l s : List Pt} :
    a ∈ l.diff s ↔ List.count a s < List.count a l := by
  rw [← List.count_pos_iff, countDiff]
  omega

theorem diff_self_nil (l : List Pt) : l.diff l = [] := by
  by_contra h
  rcases List.exists_mem_of_ne_nil _ h with ⟨a, ha⟩
  have := mem_diff_iff_count.mp ha
  omega

theorem mem_diff_cons_of_ne {k q : Pt} {l s' : List Pt} (hk : k ∈ l.diff s')
    (hne : k ≠ q) : k ∈ l.diff (q :: s') := by
  rw [mem_diff_iff_count] at hk ⊢
  rwa [List.count_cons_of_ne hne]

/-! ## The order invariant of `current_group`

Every list the algorithm ever holds as `current_group` satisfies
`POrd`: at every position, the element is either at least every
element before it, or at least every element after it.  A
descending-sorted list satisfies it, and it is preserved both by
appending a new minimum and by the repair step (which produces
`point :: moved` with `moved` a sublist of the old group). -/

/-- At every decomposition `l = l₁ ++ x :: l₂`, either `x` dominates
its prefix or it dominates its suffix (in `y`). -/
def POrd (l : List Pt) : Prop :=
  ∀ l₁ x l₂, l = l₁ ++ x :: l₂ → (∀ a ∈ l₁, a.y ≤ x.y) ∨ (∀ b ∈ l₂, b.y ≤ x.y)

theorem pOrd_of_sorted {l : List Pt} (h : l.Pairwise descY) : POrd l := by
  intro l₁ x l₂ hdec
  subst hdec
  right
  intro b hb
  exact (List.pairwise_cons.mp (List.pairwise_append.mp h).2.1).1 b hb

theorem sublist_split_cons {α : Type} {s₁ : List α} {x : α} {s₂ l : List α}
    (h : (s₁ ++ x :: s₂).Sublist l) :
    ∃ l₁ l₂, l = l₁ ++ x :: l₂ ∧ s₁.Sublist l₁ ∧ s₂.Sublist l₂ := by
  rcases List.append_sublist_iff.mp h with ⟨r₁, r₂, rfl, h₁, h₂⟩
  rcases List.cons_sublist_iff.mp h₂ with ⟨t₁, t₂, rfl, hx, hs₂⟩
  rcases List.append_of_mem hx with ⟨uu, vv, rfl⟩
  refine ⟨r₁ ++ uu, vv ++ t₂, by simp, h₁.trans (List.sublist_append_left r₁ uu),
    hs₂.trans (List.sublist_append_right vv t₂)⟩

theorem POrd.sublist {s l : List Pt} (hs : s.Sublist l) (h : POrd l) : POrd s := by
  intro s₁ x s₂ hdec
  subst hdec
  rcases sublist_split_cons hs with ⟨l₁, l₂, hl, h₁, h₂⟩
  rcases h l₁ x l₂ hl with hd | hd
  · exact Or.inl fun a ha => hd a (h₁.subset ha)
  · exact Or.inr fun b hb => hd b (h₂.subset hb)

theorem POrd.cons {u : Pt} {l : List Pt} (hu : ∀ c ∈ l, u.y ≤ c.y) (h : POrd l) :
    POrd (u :: l) := by
  intro l₁ x l₂ hdec
  cases l₁ with
  | nil =>
    simp only [List.nil_append, List.cons.injEq] at hdec
    exact Or.inl (by simp)
  | cons a t =>
    simp only [List.cons_append, List.cons.injEq] at hdec
    obtain ⟨rfl, hl⟩ := hdec
    rcases h t x l₂ hl with hd | hd
    · refine Or.inl fun a' ha' => ?_
      rcases List.mem_cons.mp ha' with rfl | ha'
      · exact hu x (hl ▸ List.mem_append_right t (List.mem_cons_self x l₂))
      · exact hd a' ha'
    · exact Or.inr hd

theorem POrd.append_single {l : List Pt} {p : Pt} (h : POrd l)
    (hp : ∀ c ∈ l, p.y ≤ c.y) : POrd (l ++ [p]) := by
  intro l₁ x l₂ hdec
  rcases List.eq_nil_or_concat l₂ with rfl | ⟨l₂', q, rfl⟩
  · exact Or.inr (by simp)
  · rw [List.concat_eq_append, ← List.cons_append, ← List.append_assoc] at hdec
    obtain ⟨hl, hq⟩ := List.append_inj' hdec (by simp)
    simp only [List.cons.injEq] at hq
    obtain rfl := hq.1.symm
    have hx : x ∈ l := by
      rw [hl]
      exact List.mem_append_right l₁ (List.mem_cons_self x l₂')
    rcases h l₁ x l₂' hl with hd | hd
    · exact Or.inl hd
    · refine Or.inr fun b hb => ?_
      rw [List.concat_eq_append] at hb
      rcases List.mem_append.mp hb with hb | hb
      · exact hd b hb
      · obtain rfl := List.mem_singleton.mp hb
        exact hp x hx

/-! ## The repair loop -/

theorem repairStep_eq (new rem : List Pt) (p : Pt) :
    repairStep (new, rem) p =
      if max_y_distance (new ++ [p]) < max_y_distance (rem.erase p ++ [p]) then
        (new ++ [p], rem.erase p)
      else (new, rem) := rfl

theorem splitGo_spec (cur : List Pt) (u : Pt)
    (HU : ∀ c ∈ cur, u.y ≤ c.y) (HP : POrd cur) :
    ∀ (s pre new rem mv : List Pt),
      cur = pre ++ s →
      new = u :: mv →
      mv.Sublist pre →
      rem.Sublist cur →
      s.Subperm rem →
      (∃ r ∈ rem, r.y = maxY cur) →
      (∀ k ∈ rem.diff s, ∀ n ∈ new, n.y ≤ k.y) →
      (∀ k ∈ rem.diff s, maxY cur - k.y + u.y ≤ minY rem) →
      (∀ n ∈ mv, ∃ e : Pt, e.y < maxY cur - n.y + u.y ∧
        (e ∈ rem ∨ e = n ∨ ∃ m₁ m₂ m₃, mv = m₁ ++ n :: m₂ ++ e :: m₃)) →
      (new ++ rem).Perm (u :: cur) →
      (new = [u] ∨ max_y_distance new < max_y_distance cur) →
      PostSplit cur u (s.foldl repairStep (new, rem)) := by
  intro s
  induction s with
  | nil =>
    intro pre new rem mv hcur hnew hmv hremcur hsp J3 J2 J5 J4 hpm L1
    rw [List.foldl_nil]
    refine ⟨hpm, hremcur, J3, L1, ?_, ⟨mv, hnew, ?_⟩⟩
    · intro r hr n hn
      exact J2 r (by rwa [List.diff_nil]) n hn
    · rw [List.append_nil] at hcur
      exact hcur ▸ hmv
  | cons q s' ih =>
    intro pre new rem mv hcur hnew hmv hremcur hsp J3 J2 J5 J4 hpm L1
    have hq_rem : q ∈ rem := hsp.subset (List.mem_cons_self q s')
    have hrem_ne : rem ≠ [] := List.ne_nil_of_mem hq_rem
    have hq_cur : q ∈ cur := hremcur.subset hq_rem
    have hperm_q : rem.Perm (q :: rem.erase q) := List.perm_cons_erase hq_rem
    have hspan_erase : max_y_distance (rem.erase q ++ [q]) = max_y_distance rem :=
      max_y_distance_perm ((List.perm_append_singleton q _).trans hperm_q.symm)
    have hrem_sub_mem : ∀ p ∈ rem, p ∈ cur := fun p hp => hremcur.subset hp
    have hmaxrem_le : maxY rem ≤ maxY cur := maxY_subset_le hrem_ne hrem_sub_mem
    have hmaxrem : maxY rem = maxY cur := by
      rcases J3 with ⟨r, hr, hry⟩
      exact le_antisymm hmaxrem_le (hry ▸ le_maxY hr)
    have hminrem_u : u.y ≤ minY rem :=
      le_minY hrem_ne fun p hp => HU p (hrem_sub_mem p hp)
    have hu_new : u ∈ new := by rw [hnew]; exact List.mem_cons_self u mv
    have hnew_ne : new ≠ [] := List.ne_nil_of_mem hu_new
    have hmv_cur : ∀ n ∈ mv, n ∈ cur := by
      intro n hn
      rw [hcur]
      exact List.mem_append_left _ (hmv.subset hn)
    have hnew_above_u : ∀ n ∈ new, u.y ≤ n.y := by
      intro n hn
      rw [hnew] at hn
      rcases List.mem_cons.mp hn with rfl | hn
      · exact le_refl _
      · exact HU n (hmv_cur n hn)
    have hnewq_ne : new ++ [q] ≠ [] := by simp
    have hspan_newq_ge : q.y - u.y ≤ max_y_distance (new ++ [q]) :=
      sub_le_max_y_distance (List.mem_append_right _ (List.mem_singleton_self q))
        (List.mem_append_left _ hu_new)
    have hspan_rem : max_y_distance rem = maxY rem - minY rem := max_y_distance_eq hrem_ne
    have hmin_newq : minY (new ++ [q]) = u.y := by
      refine le_antisymm (minY_le (List.mem_append_left _ hu_new)) (le_minY hnewq_ne ?_)
      intro p hp
      rcases List.mem_append.mp hp with hp | hp
      · exact hnew_above_u p hp
      · obtain rfl := List.mem_singleton.mp hp
        exact HU p hq_cur
    by_cases hcond :
        max_y_distance (new ++ [q]) < max_y_distance (rem.erase q ++ [q])
    · -- the loop moves q into new_group
      have hstep : repairStep (new, rem) q = (new ++ [q], rem.erase q) := by
        rw [repairStep_eq, if_pos hcond]
      rw [List.foldl_cons, hstep]
      rw [hspan_erase] at hcond
      have hdiff_eq : (rem.erase q).diff s' = rem.diff (q :: s') :=
        (List.diff_cons rem s' q).symm
      refine ih (pre ++ [q]) (new ++ [q]) (rem.erase q) (mv ++ [q]) ?_ ?_ ?_ ?_ ?_ ?_ ?_ ?_ ?_ ?_ ?_
      · rw [hcur]; simp
      · rw [hnew]; simp
      · exact hmv.append (List.Sublist.refl [q])
      · exact (List.erase_sublist q rem).trans hremcur
      · have h := hsp.erase q
        rwa [List.erase_cons_head] at h
      · -- the maximal y of cur survives the erase
        have hqM : q.y ≠ maxY cur := by
          intro hqM
          have h1 : maxY cur - u.y ≤ max_y_distance (new ++ [q]) := hqM ▸ hspan_newq_ge
          have h2 : max_y_distance rem ≤ maxY cur - u.y := by
            rw [hspan_rem]
            linarith
          linarith
        rcases J3 with ⟨r, hr, hry⟩
        refine ⟨r, (List.mem_erase_of_ne fun hrq => hqM (by rw [← hrq]; exact hry)).mpr hr, hry⟩
      · -- kept points stay above the enlarged new group
        intro k hk n hn
        rw [hdiff_eq] at hk
        rcases List.mem_append.mp hn with hn | hn
        · exact J2 k hk n hn
        · obtain rfl := List.mem_singleton.mp hn
          have h5 := J5 k hk
          have h6 : max_y_distance rem ≤ k.y - u.y := by
            rw [hspan_rem]
            linarith
          linarith
      · intro k hk
        have hk_rem' : k ∈ rem.erase q := (List.diff_sublist _ _).subset hk
        have hne' : rem.erase q ≠ [] := List.ne_nil_of_mem hk_rem'
        have hmono : minY rem ≤ minY (rem.erase q) :=
          minY_subset_le hne' fun p hp => (List.erase_sublist q rem).subset hp
        rw [hdiff_eq] at hk
        have h5 := J5 k hk
        linarith
      · -- witnesses for the moved points
        intro n hn0
        rcases List.mem_append.mp hn0 with hn1 | hn1
        · rcases J4 n hn1 with ⟨e, he, hc⟩
          refine ⟨e, he, ?_⟩
          rcases hc with he_rem | he_n | ⟨m₁, m₂, m₃, hdec⟩
          · by_cases heq : e = q
            · rcases List.append_of_mem hn1 with ⟨m₁, m₂, hmvdec⟩
              exact Or.inr (Or.inr ⟨m₁, m₂, [], by rw [heq, hmvdec]⟩)
            · exact Or.inl ((List.mem_erase_of_ne heq).mpr he_rem)
          · exact Or.inr (Or.inl he_n)
          · exact Or.inr (Or.inr ⟨m₁, m₂, m₃ ++ [q], by rw [hdec]; simp⟩)
        · obtain rfl := List.mem_singleton.mp hn1
          rcases minY_mem hrem_ne with ⟨e, he_rem, he_val⟩
          have h8 : minY rem = e.y := he_val
          have hbound : e.y < maxY cur - n.y + u.y := by
            have h7 : max_y_distance rem ≤ maxY cur - e.y := by
              rw [hspan_rem]
              linarith
            linarith [hspan_newq_ge]
          refine ⟨e, hbound, ?_⟩
          by_cases heq : e = n
          · exact Or.inr (Or.inl heq)
          · exact Or.inl ((List.mem_erase_of_ne heq).mpr he_rem)
      · refine List.Perm.trans ?_ hpm
        have h1 : (new ++ [q]) ++ rem.erase q = new ++ (q :: rem.erase q) := by simp
        rw [h1]
        exact List.Perm.append_left new hperm_q.symm
      · exact Or.inr (lt_of_lt_of_le hcond (max_y_distance_subset_le hrem_ne hrem_sub_mem))
    · -- the loop keeps q in remaining_group
      have hstep : repairStep (new, rem) q = (new, rem) := by
        rw [repairStep_eq, if_neg hcond]
      rw [hspan_erase] at hcond
      push_neg at hcond
      -- key fact: everything already in new_group lies below q
      have HB : ∀ n ∈ new, n.y ≤ q.y := by
        by_contra hex
        push_neg at hex
        rcases hex with ⟨n, hn, hlt⟩
        rcases maxY_mem hnew_ne with ⟨ns, hns_mem, hns_val⟩
        have hq_lt_ns : q.y < ns.y := lt_of_lt_of_le hlt (hns_val ▸ le_maxY hn)
        have hns_mv : ns ∈ mv := by
          rw [hnew] at hns_mem
          rcases List.mem_cons.mp hns_mem with rfl | h
          · exact absurd (HU q hq_cur) (by linarith)
          · exact h
        have hmax_newq : maxY (new ++ [q]) = ns.y := by
          refine le_antisymm (maxY_le hnewq_ne ?_) (le_maxY (List.mem_append_left _ hns_mem))
          intro p hp
          rcases List.mem_append.mp hp with hp | hp
          · exact hns_val ▸ le_maxY hp
          · obtain rfl := List.mem_singleton.mp hp
            exact le_of_lt hq_lt_ns
        have hspan_newq : max_y_distance (new ++ [q]) = ns.y - u.y := by
          rw [max_y_distance_eq hnewq_ne, hmax_newq, hmin_newq]
        have hminrem_ge : maxY cur - ns.y + u.y ≤ minY rem := by
          have h6 : maxY cur - minY rem ≤ ns.y - u.y := by
            rw [← hspan_newq]
            calc maxY cur - minY rem = maxY rem - minY rem := by rw [hmaxrem]
              _ = max_y_distance rem := hspan_rem.symm
              _ ≤ max_y_distance (new ++ [q]) := hcond
          linarith
        rcases J4 ns hns_mv with ⟨e, he_bound, hc⟩
        have he_lt : e.y < minY rem := lt_of_lt_of_le he_bound hminrem_ge
        have hminrem_le_q : minY rem ≤ q.y := minY_le hq_rem
        rcases hc with he_rem | he_ns | ⟨m₁, m₂, m₃, hdec⟩
        · linarith [minY_le he_rem]
        · rw [he_ns] at he_lt
          linarith
        · have hsub2 : ((m₁ ++ ns :: m₂) ++ e :: m₃).Sublist pre := by
            have : (m₁ ++ ns :: m₂) ++ e :: m₃ = m₁ ++ ns :: m₂ ++ e :: m₃ := by simp
            rw [this, ← hdec]
            exact hmv
          rcases sublist_split_cons hsub2 with ⟨X, Y, hpre_dec, hX, hY⟩
          have hcur_dec : cur = X ++ e :: (Y ++ q :: s') := by
            rw [hcur, hpre_dec]
            simp
          rcases HP X e (Y ++ q :: s') hcur_dec with hd | hd
          · have hnsX : ns ∈ X :=
              hX.subset (List.mem_append_right m₁ (List.mem_cons_self ns m₂))
            linarith [hd ns hnsX]
          · have hqY : q ∈ Y ++ q :: s' :=
              List.mem_append_right Y (List.mem_cons_self q s')
            linarith [hd q hqY]
      rw [List.foldl_cons, hstep]
      refine ih (pre ++ [q]) new rem mv ?_ hnew ?_ hremcur ?_ J3 ?_ ?_ J4 hpm L1
      · rw [hcur]; simp
      · exact hmv.trans (List.sublist_append_left pre [q])
      · exact (List.sublist_cons_self q s').subperm.trans hsp
      · intro k hk n hn
        by_cases hkq : k = q
        · rw [hkq]
          exact HB n hn
        · exact J2 k (mem_diff_cons_of_ne hk hkq) n hn
      · intro k hk
        by_cases hkq : k = q
        · rw [hkq]
          have hmax_newq : maxY (new ++ [q]) = q.y := by
            refine le_antisymm (maxY_le hnewq_ne ?_) (le_maxY (List.mem_append_right _ (List.mem_singleton_self q)))
            intro p hp
            rcases List.mem_append.mp hp with hp | hp
            · exact HB p hp
            · obtain rfl := List.mem_singleton.mp hp
              exact le_refl _
          have h6 : maxY cur - minY rem ≤ q.y - u.y := by
            calc maxY cur - minY rem = max_y_distance rem := by
                  rw [hspan_rem, hmaxrem]
              _ ≤ max_y_distance (new ++ [q]) := hcond
              _ = q.y - u.y := by rw [max_y_distance_eq hnewq_ne, hmax_newq, hmin_newq]
          linarith
        · exact J5 k (mem_diff_cons_of_ne hk hkq)

theorem splitGroup_spec (cur : List Pt) (u : Pt) (HU : ∀ c ∈ cur, u.y ≤ c.y)
    (HP : POrd cur) (hne : cur ≠ []) : PostSplit cur u (splitGroup cur u) := by
  have h3 : ∃ r ∈ cur, r.y = maxY cur := by
    rcases maxY_mem hne with ⟨p, hp, hv⟩
    exact ⟨p, hp, hv.symm⟩
  refine splitGo_spec cur u HU HP cur [] [u] cur [] rfl rfl
    (List.Sublist.refl []) (List.Sublist.refl cur) (List.Subperm.refl cur)
    h3 ?_ ?_ (by simp) (List.Perm.refl _) (Or.inl rfl)
  · rw [diff_self_nil]
    simp
  · rw [diff_self_nil]
    simp

/-! ## The outer loop of `find_optimal_grouping` -/

theorem pOrd_nil : POrd [] := by
  intro l₁ x l₂ hdec
  exact absurd hdec (by simp)

theorem pOrd_singleton (p : Pt) : POrd [p] := by
  intro l₁ x l₂ hdec
  cases l₁ with
  | nil =>
    simp only [List.nil_append, List.cons.injEq] at hdec
    exact Or.inr (by simp [hdec.2.symm])
  | cons a t =>
    simp only [List.cons_append, List.cons.injEq] at hdec
    exact absurd hdec.2 (by simp)

theorem span_singleton (p : Pt) : max_y_distance [p] = 0 := by
  simp [max_y_distance, maxY, minY]

/-- The invariant carried through the outer `for point in points:` loop:
all closed groups are nonempty, all closed groups and the current group
satisfy the span bound, closed groups are pairwise ordered top to
bottom, the current group lies below every closed group, and the
current group's order satisfies `POrd`. -/
def FogInv (tol : ℚ) (st : List (List Pt) × List Pt) : Prop :=
  (∀ g ∈ st.1, g ≠ []) ∧
  (∀ g ∈ st.1, 2 ≤ g.length → max_y_distance g < tol) ∧
  (2 ≤ st.2.length → max_y_distance st.2 < tol) ∧
  st.1.Pairwise (fun g₁ g₂ => ∀ a ∈ g₁, ∀ b ∈ g₂, b.y ≤ a.y) ∧
  (∀ g ∈ st.1, ∀ a ∈ g, ∀ c ∈ st.2, c.y ≤ a.y) ∧
  POrd st.2

theorem fogStep_eq (tol : ℚ) (groups : List (List Pt)) (current : List Pt) (p : Pt) :
    fogStep tol (groups, current) p =
      if current = [] then (groups, [p])
      else if max_y_distance (current ++ [p]) < tol then (groups, current ++ [p])
      else (groups ++ [(splitGroup current p).2], (splitGroup current p).1) := rfl

theorem fogGo_spec (tol : ℚ) :
    ∀ (s : List Pt) (groups : List (List Pt)) (current : List Pt),
      s.Pairwise descY →
      (∀ c ∈ current, ∀ f ∈ s, f.y ≤ c.y) →
      (∀ g ∈ groups, ∀ a ∈ g, ∀ f ∈ s, f.y ≤ a.y) →
      FogInv tol (groups, current) →
      FogInv tol (s.foldl (fogStep tol) (groups, current)) ∧
      ((s.foldl (fogStep tol) (groups, current)).1.flatten ++
        (s.foldl (fogStep tol) (groups, current)).2).Perm
        (groups.flatten ++ current ++ s) := by
  intro s
  induction s with
  | nil =>
    intro groups current _ _ _ hInv
    rw [List.foldl_nil]
    exact ⟨hInv, by simp⟩
  | cons p s' ih =>
    intro groups current hs hcs hgs hInv
    obtain ⟨hne, hgspan, hcspan, hpair, hgc, hPOrd⟩ := hInv
    have hs' : s'.Pairwise descY := (List.pairwise_cons.mp hs).2
    have hhead : ∀ f ∈ s', f.y ≤ p.y := (List.pairwise_cons.mp hs).1
    have hp_s : p ∈ p :: s' := List.mem_cons_self p s'
    rw [List.foldl_cons, fogStep_eq]
    by_cases hcur_nil : current = []
    · rw [if_pos hcur_nil]
      subst hcur_nil
      have hres := ih groups [p] hs'
        (by
          intro c hc f hf
          obtain rfl := List.mem_singleton.mp hc
          exact hhead f hf)
        (fun g hg a ha f hf => hgs g hg a ha f (List.mem_cons_of_mem p hf))
        ⟨hne, hgspan, by simp, hpair,
          (fun g hg a ha c hc => by
            obtain rfl := List.mem_singleton.mp hc
            exact hgs g hg a ha c hp_s),
          pOrd_singleton p⟩
      refine ⟨hres.1, hres.2.trans ?_⟩
      simp
    · rw [if_neg hcur_nil]
      by_cases hfit : max_y_distance (current ++ [p]) < tol
      · rw [if_pos hfit]
        have hplow : ∀ c ∈ current, p.y ≤ c.y := fun c hc => hcs c hc p hp_s
        have hres := ih groups (current ++ [p]) hs'
          (by
            intro c hc f hf
            rcases List.mem_append.mp hc with hc | hc
            · exact hcs c hc f (List.mem_cons_of_mem p hf)
            · obtain rfl := List.mem_singleton.mp hc
              exact hhead f hf)
          (fun g hg a ha f hf => hgs g hg a ha f (List.mem_cons_of_mem p hf))
          ⟨hne, hgspan, fun _ => hfit, hpair,
            (fun g hg a ha c hc => by
              rcases List.mem_append.mp hc with hc | hc
              · exact hgc g hg a ha c hc
              · obtain rfl := List.mem_singleton.mp hc
                exact hgs g hg a ha c hp_s),
            hPOrd.append_single hplow⟩
        refine ⟨hres.1, hres.2.trans ?_⟩
        simp
      · rw [if_neg hfit]
        have hplow : ∀ c ∈ current, p.y ≤ c.y := fun c hc => hcs c hc p hp_s
        obtain ⟨hperm, hremsub, hmax_in, hspan_ng, hrn, mv', hng_eq, hmv'⟩ :=
          splitGroup_spec current p hplow hPOrd hcur_nil
        obtain ⟨r, hr, hrv⟩ := hmax_in
        have hng_sub : ∀ n ∈ (splitGroup current p).1, n ∈ p :: current :=
          fun n hn => hperm.subset (List.mem_append_left _ hn)
        have hrem_ne : (splitGroup current p).2 ≠ [] := List.ne_nil_of_mem hr
        have hrem_mem : ∀ a ∈ (splitGroup current p).2, a ∈ current :=
          fun a ha => hremsub.subset ha
        have hcur_span : max_y_distance current < tol ∨ current.length ≤ 1 := by
          by_cases hl : 2 ≤ current.length
          · exact Or.inl (hcspan hl)
          · exact Or.inr (by omega)
        have hres := ih (groups ++ [(splitGroup current p).2]) (splitGroup current p).1 hs'
          (by
            intro c hc f hf
            rcases List.mem_cons.mp (hng_sub c hc) with rfl | hc'
            · exact hhead f hf
            · exact hcs c hc' f (List.mem_cons_of_mem p hf))
          (by
            intro g hg a ha f hf
            rcases List.mem_append.mp hg with hg | hg
            · exact hgs g hg a ha f (List.mem_cons_of_mem p hf)
            · obtain rfl := List.mem_singleton.mp hg
              exact hcs a (hrem_mem a ha) f (List.mem_cons_of_mem p hf))
          (by
            refine ⟨?_, ?_, ?_, ?_, ?_, ?_⟩
            · intro g hg
              rcases List.mem_append.mp hg with hg1 | hg1
              · exact hne g hg1
              · rw [List.mem_singleton.mp hg1]
                exact hrem_ne
            · intro g hg hlen
              rcases List.mem_append.mp hg with hg1 | hg1
              · exact hgspan g hg1 hlen
              · have hge := List.mem_singleton.mp hg1
                rw [hge] at hlen ⊢
                have h1 : max_y_distance (splitGroup current p).2 ≤ max_y_distance current :=
                  max_y_distance_subset_le hrem_ne hrem_mem
                rcases hcur_span with h2 | h2
                · exact lt_of_le_of_lt h1 h2
                · exact absurd hremsub.length_le (by omega)
            · intro hlen
              rcases hspan_ng with h1 | h1
              · rw [h1] at hlen
                simp at hlen
              · rcases hcur_span with h2 | h2
                · exact lt_of_lt_of_le h1 (le_of_lt h2)
                · have hcl : current.length = 1 := by
                    have hpos := List.length_pos.mpr hcur_nil
                    omega
                  rcases List.length_eq_one.mp hcl with ⟨c0, hc0⟩
                  rw [hc0, span_singleton] at h1
                  exact absurd h1 (not_lt.mpr (max_y_distance_nonneg _))
            · rw [List.pairwise_append]
              refine ⟨hpair, by simp, ?_⟩
              intro g hg g' hg'
              rw [List.mem_singleton.mp hg']
              exact fun a ha b hb => hgc g hg a ha b (hrem_mem b hb)
            · intro g hg a ha n hn
              rcases List.mem_append.mp hg with hg1 | hg1
              · rcases List.mem_cons.mp (hng_sub n hn) with hnp | hnc
                · rw [hnp]
                  exact hgs g hg1 a ha p hp_s
                · exact hgc g hg1 a ha n hnc
              · have hge := List.mem_singleton.mp hg1
                refine hrn a ?_ n hn
                rw [← hge]
                exact ha
            · rw [hng_eq]
              exact POrd.cons (fun c hc => hplow c (hmv'.subset hc))
                (POrd.sublist hmv' hPOrd))
        refine ⟨hres.1, hres.2.trans ?_⟩
        have h2 : ((splitGroup current p).2 ++ (splitGroup current p).1).Perm
            (current ++ [p]) :=
          List.perm_append_comm.trans
            (hperm.trans (List.perm_append_singleton p current).symm)
        have h3 : (groups ++ [(splitGroup current p).2]).flatten ++
              (splitGroup current p).1 ++ s'
            = groups.flatten ++
              (((splitGroup current p).2 ++ (splitGroup current p).1) ++ s') := by
          simp
        have h4 : groups.flatten ++ current ++ (p :: s')
            = groups.flatten ++ ((current ++ [p]) ++ s') := by simp
        rw [h3, h4]
        exact List.Perm.append_left _ (h2.append_right s')

/-- All invariants of the full `find_optimal_grouping`: the flattened
result is a permutation of the input, groups are nonempty, groups of
two or more points have span below the tolerance, and groups are
pairwise ordered top to bottom. -/
theorem fog_main (pts : List Pt) (tol : ℚ) :
    (find_optimal_grouping pts tol).flatten.Perm pts ∧
    (∀ g ∈ find_optimal_grouping pts tol, g ≠ []) ∧
    (∀ g ∈ find_optimal_grouping pts tol, 2 ≤ g.length → max_y_distance g < tol) ∧
    (find_optimal_grouping pts tol).Pairwise
      (fun g₁ g₂ => ∀ a ∈ g₁, ∀ b ∈ g₂, b.y ≤ a.y) := by
  have hsorted : (sortDescY pts).Pairwise descY := List.sorted_insertionSort descY pts
  have hinit : FogInv tol ([], []) :=
    ⟨by simp, by simp, by simp, by simp, by simp, pOrd_nil⟩
  obtain ⟨⟨hne, hgspan, hcspan, hpair, hgc, hPOrd⟩, hperm⟩ :=
    fogGo_spec tol (sortDescY pts) [] [] hsorted (by simp) (by simp) hinit
  have hsperm : (sortDescY pts).Perm pts := List.perm_insertionSort descY pts
  simp only [List.flatten_nil, List.nil_append] at hperm
  have hfog : find_optimal_grouping pts tol =
      if ((sortDescY pts).foldl (fogStep tol) ([], [])).2 = []
      then ((sortDescY pts).foldl (fogStep tol) ([], [])).1
      else ((sortDescY pts).foldl (fogStep tol) ([], [])).1 ++
        [((sortDescY pts).foldl (fogStep tol) ([], [])).2] := rfl
  by_cases hc : ((sortDescY pts).foldl (fogStep tol) ([], [])).2 = []
  · rw [hfog, if_pos hc]
    rw [hc, List.append_nil] at hperm
    exact ⟨hperm.trans hsperm, hne, hgspan, hpair⟩
  · rw [hfog, if_neg hc]
    refine ⟨?_, ?_, ?_, ?_⟩
    · have h1 : (((sortDescY pts).foldl (fogStep tol) ([], [])).1 ++
          [((sortDescY pts).foldl (fogStep tol) ([], [])).2]).flatten =
          ((sortDescY pts).foldl (fogStep tol) ([], [])).1.flatten ++
          ((sortDescY pts).foldl (fogStep tol) ([], [])).2 := by simp
      rw [h1]
      exact hperm.trans hsperm
    · intro g hg
      rcases List.mem_append.mp hg with hg1 | hg1
      · exact hne g hg1
      · rw [List.mem_singleton.mp hg1]
        exact hc
    · intro g hg hlen
      rcases List.mem_append.mp hg with hg1 | hg1
      · exact hgspan g hg1 hlen
      · have hge := List.mem_singleton.mp hg1
        rw [hge] at hlen
        rw [hge]
        exact hcspan hlen
    · rw [List.pairwise_append]
      refine ⟨hpair, by simp, ?_⟩
      intro g hg g' hg'
      rw [List.mem_singleton.mp hg']
      exact fun a ha b hb => hgc g hg a ha b hb

/-! ## Nonpositive tolerance -/

theorem splitGroup_singleton (c p : Pt) : splitGroup [c] p = ([p], [c]) := by
  have h1 : max_y_distance (([c].erase c) ++ [c]) = 0 := by
    rw [List.erase_cons_head, List.nil_append, span_singleton]
  have h2 : ¬ max_y_distance ([p] ++ [c]) < 0 := not_lt.mpr (max_y_distance_nonneg _)
  show repairStep ([p], [c]) c = ([p], [c])
  rw [repairStep_eq, h1, if_neg h2]

theorem fogGo_singletons (tol : ℚ) (htol : tol ≤ 0) :
    ∀ (s : List Pt) (groups : List (List Pt)) (current : List Pt),
      (∀ g ∈ groups, g.length = 1) →
      current.length ≤ 1 →
      (∀ g ∈ (s.foldl (fogStep tol) (groups, current)).1, g.length = 1) ∧
      (s.foldl (fogStep tol) (groups, current)).2.length ≤ 1 := by
  intro s
  induction s with
  | nil =>
    intro groups current hg hc
    exact ⟨hg, hc⟩
  | cons p s' ih =>
    intro groups current hg hc
    rw [List.foldl_cons, fogStep_eq]
    by_cases hnil : current = []
    · rw [if_pos hnil]
      exact ih groups [p] hg (by simp)
    · rw [if_neg hnil]
      have hfit : ¬ max_y_distance (current ++ [p]) < tol :=
        not_lt.mpr (le_trans htol (max_y_distance_nonneg _))
      rw [if_neg hfit]
      have hone : current.length = 1 := by
        have := List.length_pos.mpr hnil
        omega
      rcases List.length_eq_one.mp hone with ⟨c, rfl⟩
      rw [splitGroup_singleton]
      exact ih (groups ++ [[c]]) [p]
        (by
          intro g hgm
          rcases List.mem_append.mp hgm with h | h
          · exact hg g h
          · rw [List.mem_singleton.mp h]
            rfl)
        (by simp)

theorem fog_singletons_of_nonpos (pts : List Pt) (tol : ℚ) (htol : tol ≤ 0) :
    ∀ g ∈ find_optimal_grouping pts tol, g.length = 1 := by
  obtain ⟨hg, hc⟩ := fogGo_singletons tol htol (sortDescY pts) [] [] (by simp) (by simp)
  intro g hgm
  have hfog : find_optimal_grouping pts tol =
      if ((sortDescY pts).foldl (fogStep tol) ([], [])).2 = []
      then ((sortDescY pts).foldl (fogStep tol) ([], [])).1
      else ((sortDescY pts).foldl (fogStep tol) ([], [])).1 ++
        [((sortDescY pts).foldl (fogStep tol) ([], [])).2] := rfl
  rw [hfog] at hgm
  by_cases hnil : ((sortDescY pts).foldl (fogStep tol) ([], [])).2 = []
  · rw [if_pos hnil] at hgm
    exact hg g hgm
  · rw [if_neg hnil] at hgm
    rcases List.mem_append.mp hgm with h | h
    · exact hg g h
    · rw [List.mem_singleton.mp h]
      have := List.length_pos.mpr hnil
      omega

/-! ## Claims C1 to C6 -/

/-- The concrete scenario of the spec: points `(1,9)`, `(9,9.5)`,
`(5,5)`, `(5,3)` with distinct labels. -/
def samplePts : List Pt :=
  [⟨1, 9, "a"⟩, ⟨9, 19/2, "b"⟩, ⟨5, 5, "c"⟩, ⟨5, 3, "d"⟩]

/-- C1: for every input point sequence and every tolerance,
concatenating the groups returned by `find_optimal_grouping`
(preserving group order and intra-group order) is a permutation of the
input points — the same multiset, no point duplicated and none
dropped. -/
theorem C1_partition_completeness (pts : List Pt) (tol : ℚ) :
    (find_optimal_grouping pts tol).flatten.Perm pts :=
  (fog_main pts tol).1

/-- C2: every group returned by `find_optimal_grouping` that contains
at least two points has `max y - min y` strictly below the tolerance,
for every input and every tolerance. -/
theorem C2_span_invariant (pts : List Pt) (tol : ℚ) (g : List Pt)
    (hg : g ∈ find_optimal_grouping pts tol) (hlen : 2 ≤ g.length) :
    max_y_distance g < tol :=
  (fog_main pts tol).2.2.1 g hg hlen

theorem C2_span_invariant_witness :
    [⟨9, 19/2, "b"⟩, ⟨1, 9, "a"⟩] ∈ find_optimal_grouping samplePts 1 ∧
    2 ≤ ([⟨9, 19/2, "b"⟩, ⟨1, 9, "a"⟩] : List Pt).length ∧
    max_y_distance [⟨9, 19/2, "b"⟩, ⟨1, 9, "a"⟩] < 1 :=
  ⟨by decide, by decide, C2_span_invariant samplePts 1 _ (by decide) (by decide)⟩

/-- C5: consecutive groups of the output are ordered top to bottom:
the minimal `y` of a group is at least the maximal `y` of the next
group, for every input and tolerance. -/
theorem C5_top_to_bottom (pts : List Pt) (tol : ℚ) (i : ℕ)
    (h : i + 1 < (find_optimal_grouping pts tol).length) :
    maxY ((find_optimal_grouping pts tol).get ⟨i + 1, h⟩) ≤
      minY ((find_optimal_grouping pts tol).get ⟨i, Nat.lt_of_succ_lt h⟩) := by
  obtain ⟨-, hne, -, hpair⟩ := fog_main pts tol
  have hrel := List.pairwise_iff_get.mp hpair ⟨i, Nat.lt_of_succ_lt h⟩ ⟨i + 1, h⟩
    (by exact Nat.lt_succ_self i)
  have hne₁ : (find_optimal_grouping pts tol).get ⟨i, Nat.lt_of_succ_lt h⟩ ≠ [] :=
    hne _ (List.get_mem _ _ _)
  have hne₂ : (find_optimal_grouping pts tol).get ⟨i + 1, h⟩ ≠ [] :=
    hne _ (List.get_mem _ _ _)
  rcases maxY_mem hne₂ with ⟨b, hb, hbv⟩
  rcases minY_mem hne₁ with ⟨a, ha, hav⟩
  rw [hbv, hav]
  exact hrel a ha b hb

theorem C5_top_to_bottom_witness :
    0 + 1 < (find_optimal_grouping samplePts 1).length ∧
    maxY ((find_optimal_grouping samplePts 1).get ⟨0 + 1, by decide⟩) ≤
      minY ((find_optimal_grouping samplePts 1).get ⟨0, by decide⟩) :=
  ⟨by decide, C5_top_to_bottom samplePts 1 0 (by decide)⟩

/-- C6: on the spec's scenario input with tolerance 1, grouping
followed by the ascending-x sort of each group returns exactly
`[(1,9),(9,9.5)]`, `[(5,5)]`, `[(5,3)]` in this order. -/
theorem C6_scenario :
    (find_optimal_grouping samplePts 1).map sortAscX =
      [[⟨1, 9, "a"⟩, ⟨9, 19/2, "b"⟩], [⟨5, 5, "c"⟩], [⟨5, 3, "d"⟩]] := by
  decide

/-- C3 counterexample: with tolerance `-1` the code does not fail at
all — there is no tolerance validation — it returns an ordinary
grouping (one singleton group per point). -/
theorem C3_counterexample :
    find_optimal_grouping [⟨1, 9, "a"⟩] (-1) = [[⟨1, 9, "a"⟩]] := by
  decide

/-- C3 amended: a negative tolerance is accepted without any error and
every returned group is a singleton (the strict span test never
passes since spans are nonnegative). -/
theorem C3_amended (pts : List Pt) (g : List Pt)
    (hg : g ∈ find_optimal_grouping pts (-1)) : g.length = 1 :=
  fog_singletons_of_nonpos pts (-1) (by norm_num) g hg

theorem C3_amended_witness :
    [⟨1, 9, "a"⟩] ∈ find_optimal_grouping [⟨1, 9, "a"⟩] (-1) ∧
    ([⟨1, 9, "a"⟩] : List Pt).length = 1 :=
  ⟨by decide, C3_amended [⟨1, 9, "a"⟩] _ (by decide)⟩

/-- C4 counterexample: with tolerance 0, two points with equal `y` end
up in two different (singleton) groups, because the strict test
`span < 0` fails even for span `0`. -/
theorem C4_counterexample :
    find_optimal_grouping [⟨0, 5, "a"⟩, ⟨1, 5, "b"⟩] 0 =
      [[⟨0, 5, "a"⟩], [⟨1, 5, "b"⟩]] := by
  decide

/-- C4 amended: with tolerance 0 the grouping degenerates to one
singleton group per point — points with identical `y` are *not* kept
together, since `0 < 0` is false under the strict comparison. -/
theorem C4_amended (pts : List Pt) (g : List Pt)
    (hg : g ∈ find_optimal_grouping pts 0) : g.length = 1 :=
  fog_singletons_of_nonpos pts 0 (le_refl 0) g hg

theorem C4_amended_witness :
    [⟨0, 5, "a"⟩] ∈ find_optimal_grouping [⟨0, 5, "a"⟩, ⟨1, 5, "b"⟩] 0 ∧
    ([⟨0, 5, "a"⟩] : List Pt).length = 1 :=
  ⟨by decide, C4_amended [⟨0, 5, "a"⟩, ⟨1, 5, "b"⟩] _ (by decide)⟩

/-! ## Claims C8, C9, C10: the point store -/

theorem gpn_ptsX (s : Store) : (generate_point_name s).2.ptsX = s.ptsX := by
  rcases s with ⟨px, py, pn, us, rm⟩
  cases rm <;> rfl

/-- C9 counterexample: adding with `x` provided (`5`) and `y` absent,
when the random draws are `(7, 7)`, stores `x = 7`, not the provided
`5` — the add branch replaces *both* coordinates whenever either is
absent. -/
theorem C9_counterexample :
    (applyOp Store.init (Op.add (some 5) none 7 7)).map Store.ptsX =
      Except.ok [7] ∧ (7 : ℚ) ≠ 5 := by
  refine ⟨rfl, by norm_num⟩

/-- C9 amended: coordinates are substituted jointly, not per axis:
when both coordinates are provided they are stored exactly as given,
but when either coordinate is absent *both* are replaced by the random
draws; in particular a provided `x` with an absent `y` is discarded. -/
theorem C9_amended (s : Store) (rx ry x y : ℚ) :
    (applyOp s (Op.add (some x) (some y) rx ry)).map Store.ptsX =
      Except.ok (s.ptsX ++ [x]) ∧
    (applyOp s (Op.add (some x) (some y) rx ry)).map Store.ptsY =
      Except.ok (s.ptsY ++ [y]) ∧
    (applyOp s (Op.add (some x) none rx ry)).map Store.ptsX =
      Except.ok (s.ptsX ++ [rx]) ∧
    (applyOp s (Op.add none (some y) rx ry)).map Store.ptsY =
      Except.ok (s.ptsY ++ [ry]) := by
  rcases s with ⟨px, py, pn, us, rm⟩
  cases rm <;> exact ⟨rfl, rfl, rfl, rfl⟩

/-- C10: the five-click sequence add, add, remove, add, remove ends in
an uncaught `KeyError`: the third add hands out the recycled label
without re-inserting it into `used_names`, so the final remove calls
`used_names.remove` on an absent element. -/
theorem C10_keyerror_trace :
    runOps [Op.add none none 1 1, Op.add none none 2 2, Op.remove,
      Op.add none none 3 3, Op.remove] = Except.error "KeyError" := rfl

/-- C8 (the code violates the claim): after add, remove, add, add the
store holds two points that both carry label `0` (the string `a`): the
recycled label is handed out again by the fresh-name search because it
was never re-inserted into `used_names`. -/
theorem C8_duplicate_label :
    (runOps [Op.add (some 1) (some 1) 0 0, Op.remove,
      Op.add (some 2) (some 2) 0 0, Op.add (some 3) (some 3) 0 0]).map
        Store.ptsN = Except.ok [0, 0] ∧ ¬ ([0, 0] : List ℕ).Nodup :=
  ⟨rfl, by decide⟩

/-! ## Claim C7: idempotence on re-grouping -/

theorem perm_strict_sorted_eq :
    ∀ {l₁ l₂ : List Pt}, l₁.Perm l₂ →
      l₁.Pairwise (fun p q => q.y < p.y) →
      l₂.Pairwise (fun p q => q.y < p.y) → l₁ = l₂ := by
  intro l₁
  induction l₁ with
  | nil =>
    intro l₂ h _ _
    exact (List.Perm.eq_nil h.symm).symm
  | cons a t₁ ih =>
    intro l₂ h h₁ h₂
    cases l₂ with
    | nil => exact absurd (List.Perm.eq_nil h) (by simp)
    | cons b t₂ =>
      have hab : a = b := by
        by_contra hne
        have ha : a ∈ b :: t₂ := h.subset (List.mem_cons_self a t₁)
        have hb : b ∈ a :: t₁ := h.symm.subset (List.mem_cons_self b t₂)
        have h1 : a.y < b.y := by
          rcases List.mem_cons.mp ha with h' | h'
          · exact absurd h' hne
          · exact (List.pairwise_cons.mp h₂).1 a h'
        have h2 : b.y < a.y := by
          rcases List.mem_cons.mp hb with h' | h'
          · exact absurd h'.symm hne
          · exact (List.pairwise_cons.mp h₁).1 b h'
        linarith
      subst hab
      have ht : t₁ = t₂ := ih (h.cons_inv)
        (List.pairwise_cons.mp h₁).2 (List.pairwise_cons.mp h₂).2
      rw [ht]

theorem sorted_strict_of_nodup {l : List Pt} (hs : l.Pairwise descY)
    (hn : (l.map Pt.y).Nodup) : l.Pairwise (fun p q => q.y < p.y) := by
  have hne : l.Pairwise (fun p q => p.y ≠ q.y) := List.pairwise_map.mp hn
  exact (hs.and hne).imp fun h => lt_of_le_of_ne h.1 h.2.symm

theorem sortDescY_eq_of_perm {l₁ l₂ : List Pt} (h : l₁.Perm l₂)
    (hn : (l₁.map Pt.y).Nodup) : sortDescY l₁ = sortDescY l₂ := by
  have hp₁ : (sortDescY l₁).Perm l₁ := List.perm_insertionSort descY l₁
  have hp₂ : (sortDescY l₂).Perm l₂ := List.perm_insertionSort descY l₂
  have hn₁ : ((sortDescY l₁).map Pt.y).Nodup :=
    ((hp₁.map Pt.y).nodup_iff).mpr hn
  have hn₂ : ((sortDescY l₂).map Pt.y).Nodup :=
    ((hp₂.map Pt.y).nodup_iff).mpr (((h.map Pt.y).nodup_iff).mp hn)
  exact perm_strict_sorted_eq (hp₁.trans (h.trans hp₂.symm))
    (sorted_strict_of_nodup (List.sorted_insertionSort descY l₁) hn₁)
    (sorted_strict_of_nodup (List.sorted_insertionSort descY l₂) hn₂)

theorem fog_eq_of_sort_eq {l₁ l₂ : List Pt} (tol : ℚ)
    (h : sortDescY l₁ = sortDescY l₂) :
    find_optimal_grouping l₁ tol = find_optimal_grouping l₂ tol := by
  simp only [find_optimal_grouping, h]

theorem flatten_map_sortAscX_perm :
    ∀ (G : List (List Pt)), ((G.map sortAscX).flatten).Perm G.flatten := by
  intro G
  induction G with
  | nil => simp
  | cons g G' ih =>
    simp only [List.map_cons, List.flatten_cons]
    exact (List.perm_insertionSort ascX g).append ih

/-- C7: for a point set with pairwise-distinct `y` values, flattening
the grouped-and-x-sorted output and regrouping it with the same
tolerance reproduces exactly the same grouping. -/
theorem C7_idempotent (pts : List Pt) (tol : ℚ)
    (hn : (pts.map Pt.y).Nodup) :
    find_optimal_grouping
        (((find_optimal_grouping pts tol).map sortAscX).flatten) tol =
      find_optimal_grouping pts tol := by
  have hperm : (((find_optimal_grouping pts tol).map sortAscX).flatten).Perm pts :=
    (flatten_map_sortAscX_perm _).trans (fog_main pts tol).1
  exact fog_eq_of_sort_eq tol
    (sortDescY_eq_of_perm hperm (((hperm.map Pt.y).nodup_iff).mpr hn))

theorem C7_idempotent_witness :
    ((samplePts.map Pt.y).Nodup) ∧
    find_optimal_grouping
        (((find_optimal_grouping samplePts 1).map sortAscX).flatten) 1 =
      find_optimal_grouping samplePts 1 :=
  ⟨by decide, C7_idempotent samplePts 1 (by decide)⟩
